import Mathlib

set_option maxRecDepth 40000

/-!
Verification development for the pershout persistence-scoring pipeline.

The source program (src/pershout.py) builds a k-nearest-neighbor distance
graph over a point cloud, rewrites exact-zero stored weights to a small
epsilon, extracts a minimum spanning forest, restores the epsilon entries
to zero, computes a per-vertex persistence value as the minimum strictly
positive entry of that vertex's row of the forest matrix (rows with no
stored entry keep the zero-initialised default), min-max normalizes by the
global minimum and maximum positive forest weight, and ranks vertices by
sorting the scores.

Modelling conventions.
* Points are one-dimensional rational coordinates; the Euclidean metric in
  one dimension is the exact absolute difference, so all arithmetic is
  exact in the rationals.  (Floating point is replaced by exact rational
  arithmetic; none of the properties proved below depends on rounding, and
  the epsilon factor 1e-8 enters only through comparisons that hold for
  any factor strictly between 0 and 1.)
* A sparse CSR matrix is modelled as the list of its stored entries in
  storage order.  A stored entry may carry the value 0 (an explicit zero):
  it is counted by the nnz-per-row degree computation but excluded by
  strict positivity filters, exactly as in the library.
* The neighbor rows list each point's k nearest other points in order of
  increasing distance, ties broken by smaller index, matching the
  deterministic order the neighbor library produces for a fixed input.
* Sorting (the argsort over candidate edge weights inside the spanning
  forest extraction and the final argsort over scores) is modelled as a
  stable sort, realised by sorting with a tie-breaking index component in
  the key.  On the short arrays of the concrete inputs used below the
  library sort degenerates to an insertion sort, which is stable, so the
  model is exact there; for long arrays the library tie order is
  deterministic but unspecified, and none of the general theorems below
  depends on the tie order.
* Failures are modelled with an explicit error type.  The source has no
  error classes; each constructor names the spec-level error kind whose
  triggering condition coincides with the library exception raised at that
  program point (parameter validation inside the neighbor query; the
  empty-slice minimum at the epsilon computation and at the global minimum
  of positive forest weights; and a row minimum over an empty selection
  inside the scoring loop, which the spec does not name and which is
  called scorerEmptyMin here).
* Division is exact rational division; the library instead produces
  non-finite floating values on a zero denominator without raising.  The
  theorems about the normalizer therefore only ever assert which branch is
  taken and what the minuend and denominator are, never a value of a
  division by zero.
-/

/-- Entry of a sparse matrix: a stored value w at position (row, col). -/
structure Entry where
  row : Nat
  col : Nat
  w : ℚ
deriving DecidableEq, Repr

/-- Lexicographic order on (value, tiebreak-index) keys. -/
def keyLe (p q : ℚ × ℕ) : Prop := p.1 < q.1 ∨ (p.1 = q.1 ∧ p.2 ≤ q.2)

instance : DecidableRel keyLe := fun p q =>
  inferInstanceAs (Decidable (p.1 < q.1 ∨ (p.1 = q.1 ∧ p.2 ≤ q.2)))

/-- Stable sort of a list by a (value, tiebreak-index) key. -/
def sortByKey (kf : α → ℚ × ℕ) (l : List α) : List α :=
  List.insertionSort (fun a b => keyLe (kf a) (kf b)) l

/-- Euclidean distance of one-dimensional points. -/
def dist1 (a b : ℚ) : ℚ := |a - b|

/-- Row i of the k-nearest-neighbor distance graph: entries (i, j, d(i,j))
for the k nearest points j of point i (j distinct from i), ordered by
increasing distance with ties broken by smaller index. -/
def knnRow (ps : List ℚ) (k i : ℕ) : List Entry :=
  let cands := ((List.range ps.length).filter (fun j => decide (j ≠ i))).map
    (fun j => Entry.mk i j (dist1 (ps.getD i 0) (ps.getD j 0)))
  (sortByKey (fun e => (e.w, e.col)) cands).take k

/-- Stored entries of the k-nearest-neighbor graph, row-major. -/
def knnGraph (ps : List ℚ) (k : ℕ) : List Entry :=
  ((List.range ps.length).map (knnRow ps k)).flatten

/-- Minimum of a list of rationals, none when empty (the empty case is
where the library reduction raises). -/
def minQ : List ℚ → Option ℚ
  | [] => none
  | x :: xs => some (xs.foldl min x)

/-- Maximum of a list of rationals, none when empty. -/
def maxQ : List ℚ → Option ℚ
  | [] => none
  | x :: xs => some (xs.foldl max x)

/-- Strictly positive stored values of a graph, in storage order. -/
def posWeights (g : List Entry) : List ℚ :=
  (g.map Entry.w).filter (fun w => decide (0 < w))

/-- Sanitizer rewrite: every stored entry with value exactly 0 is replaced
by the epsilon value zf. -/
def sanitize (zf : ℚ) (g : List Entry) : List Entry :=
  g.map (fun e => if e.w = 0 then { e with w := zf } else e)

/-- Component label of vertex v under labelling ls (identity outside). -/
def lbl (ls : List ℕ) (v : ℕ) : ℕ := ls.getD v v

/-- Merge two components by relabelling a to b. -/
def relabel (ls : List ℕ) (a b : ℕ) : List ℕ :=
  ls.map (fun x => if x = a then b else x)

/-- Kruskal scan: keep each candidate entry whose endpoints currently lie
in distinct components, merging the components.  Candidates arrive sorted
by weight; every stored entry is an undirected candidate edge and a kept
entry retains its stored (row, col) orientation, as in the library
routine. -/
def kruskalGo : List ℕ → List Entry → List Entry
  | _, [] => []
  | ls, e :: es =>
    if lbl ls e.row = lbl ls e.col then kruskalGo ls es
    else e :: kruskalGo (relabel ls (lbl ls e.col) (lbl ls e.row)) es

/-- Minimum spanning forest of the stored-entry graph g on n vertices:
process all stored entries in increasing weight order (ties in storage
order) and keep the ones joining distinct components. -/
def mstOf (n : ℕ) (g : List Entry) : List Entry :=
  kruskalGo (List.range n)
    ((sortByKey (fun pe => (pe.2.w, pe.1)) g.enum).map Prod.snd)

/-- Reversal of the sanitizer: surviving entries whose value equals the
epsilon zf are rewritten back to 0 (kept as explicit zeros). -/
def restore (zf : ℚ) (mst : List Entry) : List Entry :=
  mst.map (fun e => if e.w = zf then { e with w := 0 } else e)

/-- Epsilon scale factor of the sanitizer. -/
def epsFactor : ℚ := 1 / 100000000

/-- Epsilon value derived from the neighbor graph: the minimum stored
strictly positive weight times the epsilon factor; none when no strictly
positive stored weight exists (where the library reduction raises). -/
def zeroFixOf (ps : List ℚ) (k : ℕ) : Option ℚ :=
  (minQ (posWeights (knnGraph ps k))).map (fun m => m * epsFactor)

/-- Restored spanning forest of the sanitized neighbor graph. -/
def forestFor (ps : List ℚ) (k : ℕ) (zf : ℚ) : List Entry :=
  restore zf (mstOf ps.length (sanitize zf (knnGraph ps k)))

/-- Stored values of row i of the forest matrix (explicit zeros included),
in storage order. -/
def mstRow (mst : List Entry) (i : ℕ) : List ℚ :=
  (mst.filter (fun e => decide (e.row = i))).map Entry.w

/-- Number of stored entries in row i (the nnz-per-row degree). -/
def degree (mst : List Entry) (i : ℕ) : ℕ := (mstRow mst i).length

/-- Persistence of vertex i: when row i has a stored entry, the minimum of
the strictly positive values of that row (none models the exception raised
by a minimum over an empty selection there); when row i is empty, the
zero-initialised default is left in place. -/
def persistEntry (mst : List Entry) (i : ℕ) : Option ℚ :=
  if 0 < degree mst i then minQ ((mstRow mst i).filter (fun w => decide (0 < w)))
  else some 0

/-- Persistence values for a list of vertex indices; none as soon as one
vertex's row minimum is taken over an empty selection. -/
def persistsFrom (mst : List Entry) : List ℕ → Option (List ℚ)
  | [] => some []
  | i :: is =>
    match persistEntry mst i, persistsFrom mst is with
    | some q, some qs => some (q :: qs)
    | _, _ => none

/-- Raw persistence vector over n vertices. -/
def persistVec (mst : List Entry) (n : ℕ) : Option (List ℚ) :=
  persistsFrom mst (List.range n)

/-- Ranking: indices of l sorted by increasing value, stable. -/
def argsortQ (l : List ℚ) : List ℕ :=
  (sortByKey (fun p => (p.2, p.1)) l.enum).map Prod.fst

/-- Error kinds of the pipeline; see the module comment for how each
constructor corresponds to a library exception in the source. -/
inductive PErr where
  | invalidParameter
  | degenerateGraph
  | degenerateRange
  | scorerEmptyMin
deriving DecidableEq, Repr

/-- Observable outcome of a successful run. -/
structure RunResult where
  graph : List Entry
  forest : List Entry
  lmin : ℚ
  lmax : ℚ
  rawPersist : List ℚ
  scores : List ℚ
  ranking : List ℕ
deriving DecidableEq, Repr

/-- Scoring and reporting over the restored forest F on n vertices with
neighbor graph g: global positive minimum and maximum of the forest
weights (failing on an empty selection), per-row persistence (failing on a
row whose positive selection is empty), min-max normalization and the
ranking. -/
def rankStage (g F : List Entry) (n : ℕ) : Except PErr RunResult :=
  match minQ (posWeights F), maxQ (posWeights F) with
  | some lmin, some lmax =>
    match persistVec F n with
    | none => .error .scorerEmptyMin
    | some pr =>
      .ok ⟨g, F, lmin, lmax, pr,
           pr.map (fun p => (p - lmin) / (lmax - lmin)),
           argsortQ (pr.map (fun p => (p - lmin) / (lmax - lmin)))⟩
  | _, _ => .error .degenerateRange

/-- The whole pipeline: neighbor graph, epsilon sanitization, spanning
forest, epsilon restoration, then the scoring and reporting stage. -/
def pipeline (ps : List ℚ) (k : ℕ) : Except PErr RunResult :=
  if k < 1 ∨ ps.length ≤ k then .error .invalidParameter else
  match zeroFixOf ps k with
  | none => .error .degenerateGraph
  | some zf => rankStage (knnGraph ps k) (forestFor ps k zf) ps.length

/-- Spec-side persistence, modelled from the claim text: the minimum over
the strictly positive weights of all forest edges incident to vertex i in
either stored orientation; none is the disconnected sentinel when vertex i
has no incident edge of positive weight.  This definition follows the
claim wording and is compared against the program's persistEntry. -/
def persistSpecIncident (mst : List Entry) (i : ℕ) : Option ℚ :=
  minQ (((mst.filter (fun e => decide (e.row = i ∨ e.col = i))).map Entry.w).filter
    (fun w => decide (0 < w)))

/-- Observable outcome of the run on the four colinear points 0, 1, 2, 10
with three neighbors per point. -/
def s1res : RunResult :=
  RunResult.mk
    [Entry.mk 0 1 1, Entry.mk 0 2 2, Entry.mk 0 3 10,
     Entry.mk 1 0 1, Entry.mk 1 2 1, Entry.mk 1 3 9,
     Entry.mk 2 1 1, Entry.mk 2 0 2, Entry.mk 2 3 8,
     Entry.mk 3 2 8, Entry.mk 3 1 9, Entry.mk 3 0 10]
    [Entry.mk 0 1 1, Entry.mk 1 2 1, Entry.mk 2 3 8]
    1 8 [1, 1, 8, 0] [0, 0, 1, -(1/7)] [3, 0, 1, 2]

/-- Observable outcome of the run on the two points 0, 1 with one neighbor
per point (a run in which the normalization range collapses). -/
def s3res : RunResult :=
  RunResult.mk [Entry.mk 0 1 1, Entry.mk 1 0 1] [Entry.mk 0 1 1]
    1 1 [1, 0] [0, 0] [0, 1]

/-- Observable outcome of the run on the points 0, 0, 3, 7 (one duplicate
pair among otherwise distinct points) with two neighbors per point. -/
def s5res : RunResult :=
  RunResult.mk
    [Entry.mk 0 1 0, Entry.mk 0 2 3,
     Entry.mk 1 0 0, Entry.mk 1 2 3,
     Entry.mk 2 0 3, Entry.mk 2 1 3,
     Entry.mk 3 2 4, Entry.mk 3 0 7]
    [Entry.mk 0 1 0, Entry.mk 0 2 3, Entry.mk 3 2 4]
    3 4 [3, 0, 0, 4] [0, -3, -3, 1] [1, 2, 0, 3]

/-! Basic facts about the key order and the stable sort. -/

theorem keyLe_refl (p : ℚ × ℕ) : keyLe p p := Or.inr ⟨rfl, le_refl _⟩

theorem keyLe_total (p q : ℚ × ℕ) : keyLe p q ∨ keyLe q p := by
  rcases lt_trichotomy p.1 q.1 with h | h | h
  · exact Or.inl (Or.inl h)
  · rcases Nat.le_total p.2 q.2 with h2 | h2
    · exact Or.inl (Or.inr ⟨h, h2⟩)
    · exact Or.inr (Or.inr ⟨h.symm, h2⟩)
  · exact Or.inr (Or.inl h)

theorem keyLe_trans {p q r : ℚ × ℕ} (h1 : keyLe p q) (h2 : keyLe q r) : keyLe p r := by
  rcases h1 with h1 | ⟨h1, h1n⟩
  · rcases h2 with h2 | ⟨h2, _⟩
    · exact Or.inl (h1.trans h2)
    · exact Or.inl (h2 ▸ h1)
  · rcases h2 with h2 | ⟨h2, h2n⟩
    · exact Or.inl (h1 ▸ h2)
    · exact Or.inr ⟨h1.trans h2, h1n.trans h2n⟩

theorem sortByKey_perm (kf : α → ℚ × ℕ) (l : List α) : (sortByKey kf l).Perm l :=
  List.perm_insertionSort _ l

theorem sortByKey_mem {kf : α → ℚ × ℕ} {l : List α} {x : α} :
    x ∈ sortByKey kf l ↔ x ∈ l :=
  (sortByKey_perm kf l).mem_iff

theorem sortByKey_pairwise (kf : α → ℚ × ℕ) (l : List α) :
    (sortByKey kf l).Pairwise (fun a b => keyLe (kf a) (kf b)) := by
  haveI : IsTotal α (fun a b => keyLe (kf a) (kf b)) := ⟨fun a b => keyLe_total _ _⟩
  haveI : IsTrans α (fun a b => keyLe (kf a) (kf b)) := ⟨fun _ _ _ => keyLe_trans⟩
  exact List.sorted_insertionSort _ l

/-! Facts about the list minimum and maximum. -/

theorem foldl_min_spec (xs : List ℚ) (x : ℚ) :
    xs.foldl min x ∈ x :: xs ∧ ∀ y ∈ x :: xs, xs.foldl min x ≤ y := by
  induction xs generalizing x with
  | nil => exact ⟨List.mem_singleton_self x, by
      intro y hy; rcases List.mem_singleton.mp hy with rfl; exact le_refl _⟩
  | cons z zs ih =>
    have h := ih (min x z)
    constructor
    · show zs.foldl min (min x z) ∈ x :: z :: zs
      rcases List.mem_cons.mp h.1 with hm | hm
      · rw [hm]
        rcases min_choice x z with hc | hc
        · rw [hc]; exact List.mem_cons_self _ _
        · rw [hc]; exact List.mem_cons_of_mem _ (List.mem_cons_self _ _)
      · exact List.mem_cons_of_mem _ (List.mem_cons_of_mem _ hm)
    · intro y hy
      show zs.foldl min (min x z) ≤ y
      rcases List.mem_cons.mp hy with rfl | hy
      · exact (h.2 _ (List.mem_cons_self _ _)).trans (min_le_left _ _)
      rcases List.mem_cons.mp hy with rfl | hy
      · exact (h.2 _ (List.mem_cons_self _ _)).trans (min_le_right _ _)
      · exact h.2 _ (List.mem_cons_of_mem _ hy)

theorem foldl_max_spec (xs : List ℚ) (x : ℚ) :
    xs.foldl max x ∈ x :: xs ∧ ∀ y ∈ x :: xs, y ≤ xs.foldl max x := by
  induction xs generalizing x with
  | nil => exact ⟨List.mem_singleton_self x, by
      intro y hy; rcases List.mem_singleton.mp hy with rfl; exact le_refl _⟩
  | cons z zs ih =>
    have h := ih (max x z)
    constructor
    · show zs.foldl max (max x z) ∈ x :: z :: zs
      rcases List.mem_cons.mp h.1 with hm | hm
      · rw [hm]
        rcases max_choice x z with hc | hc
        · rw [hc]; exact List.mem_cons_self _ _
        · rw [hc]; exact List.mem_cons_of_mem _ (List.mem_cons_self _ _)
      · exact List.mem_cons_of_mem _ (List.mem_cons_of_mem _ hm)
    · intro y hy
      show y ≤ zs.foldl max (max x z)
      rcases List.mem_cons.mp hy with rfl | hy
      · exact (le_max_left _ _).trans (h.2 _ (List.mem_cons_self _ _))
      rcases List.mem_cons.mp hy with rfl | hy
      · exact (le_max_right _ _).trans (h.2 _ (List.mem_cons_self _ _))
      · exact h.2 _ (List.mem_cons_of_mem _ hy)

theorem minQ_eq_none_iff {l : List ℚ} : minQ l = none ↔ l = [] := by
  cases l <;> simp [minQ]

theorem minQ_mem {l : List ℚ} {q : ℚ} (h : minQ l = some q) : q ∈ l := by
  cases l with
  | nil => simp [minQ] at h
  | cons x xs =>
    simp only [minQ, Option.some.injEq] at h
    exact h ▸ (foldl_min_spec xs x).1

theorem minQ_le {l : List ℚ} {q : ℚ} (h : minQ l = some q) : ∀ x ∈ l, q ≤ x := by
  cases l with
  | nil => simp [minQ] at h
  | cons x xs =>
    simp only [minQ, Option.some.injEq] at h
    exact h ▸ (foldl_min_spec xs x).2

theorem maxQ_eq_none_iff {l : List ℚ} : maxQ l = none ↔ l = [] := by
  cases l <;> simp [maxQ]

theorem maxQ_mem {l : List ℚ} {q : ℚ} (h : maxQ l = some q) : q ∈ l := by
  cases l with
  | nil => simp [maxQ] at h
  | cons x xs =>
    simp only [maxQ, Option.some.injEq] at h
    exact h ▸ (foldl_max_spec xs x).1

theorem maxQ_ge {l : List ℚ} {q : ℚ} (h : maxQ l = some q) : ∀ x ∈ l, x ≤ q := by
  cases l with
  | nil => simp [maxQ] at h
  | cons x xs =>
    simp only [maxQ, Option.some.injEq] at h
    exact h ▸ (foldl_max_spec xs x).2

/-! Facts about positive stored weights. -/

theorem mem_posWeights {g : List Entry} {q : ℚ} :
    q ∈ posWeights g ↔ (∃ e ∈ g, e.w = q) ∧ 0 < q := by
  simp [posWeights, List.mem_filter, List.mem_map]

theorem posWeights_eq_nil_iff {g : List Entry} :
    posWeights g = [] ↔ ∀ e ∈ g, ¬ 0 < e.w := by
  constructor
  · intro h e he hpos
    have : e.w ∈ posWeights g := mem_posWeights.mpr ⟨⟨e, he, rfl⟩, hpos⟩
    simp [h] at this
  · intro h
    rcases hq : posWeights g with _ | ⟨q, qs⟩
    · rfl
    · have : q ∈ posWeights g := hq ▸ List.mem_cons_self _ _
      rcases mem_posWeights.mp this with ⟨⟨e, he, hew⟩, hpos⟩
      exact absurd (hew ▸ hpos) (h e he)

/-! Membership characterizations of the pipeline stages. -/

theorem knnRow_mem {ps : List ℚ} {k i : ℕ} {e : Entry} (h : e ∈ knnRow ps k i) :
    e.row = i ∧ e.col < ps.length ∧ e.col ≠ i ∧
      e.w = dist1 (ps.getD i 0) (ps.getD e.col 0) := by
  have h1 : e ∈ sortByKey (fun e => (e.w, e.col))
      (((List.range ps.length).filter (fun j => decide (j ≠ i))).map
        (fun j => Entry.mk i j (dist1 (ps.getD i 0) (ps.getD j 0)))) :=
    List.mem_of_mem_take h
  have h2 := sortByKey_mem.mp h1
  rcases List.mem_map.mp h2 with ⟨j, hj, rfl⟩
  rcases List.mem_filter.mp hj with ⟨hjr, hji⟩
  exact ⟨rfl, List.mem_range.mp hjr, by simpa using hji, rfl⟩

theorem knnGraph_mem {ps : List ℚ} {k : ℕ} {e : Entry} (h : e ∈ knnGraph ps k) :
    e.row < ps.length ∧ e.col < ps.length ∧ e.col ≠ e.row ∧
      e.w = dist1 (ps.getD e.row 0) (ps.getD e.col 0) := by
  rcases List.mem_flatten.mp h with ⟨l, hl, hel⟩
  rcases List.mem_map.mp hl with ⟨i, hi, rfl⟩
  rcases knnRow_mem hel with ⟨hrow, hcol, hne, hw⟩
  subst hrow
  exact ⟨List.mem_range.mp hi, hcol, hne, hw⟩

theorem knnGraph_w_nonneg {ps : List ℚ} {k : ℕ} {e : Entry} (h : e ∈ knnGraph ps k) :
    0 ≤ e.w := by
  rcases knnGraph_mem h with ⟨-, -, -, hw⟩
  rw [hw]; exact abs_nonneg _

theorem sanitize_eq_self {zf : ℚ} {g : List Entry} (h : ∀ e ∈ g, e.w ≠ 0) :
    sanitize zf g = g := by
  unfold sanitize
  rw [List.map_congr_left (fun e he => if_neg (h e he)), List.map_id']

theorem restore_eq_self {zf : ℚ} {mst : List Entry} (h : ∀ e ∈ mst, e.w ≠ zf) :
    restore zf mst = mst := by
  unfold restore
  rw [List.map_congr_left (fun e he => if_neg (h e he)), List.map_id']

theorem restore_mem {zf : ℚ} {mst : List Entry} {x : Entry} :
    x ∈ restore zf mst ↔ ∃ e ∈ mst, x = if e.w = zf then { e with w := 0 } else e := by
  unfold restore
  constructor
  · intro h; rcases List.mem_map.mp h with ⟨e, he, rfl⟩; exact ⟨e, he, rfl⟩
  · rintro ⟨e, he, rfl⟩; exact List.mem_map.mpr ⟨e, he, rfl⟩

theorem kruskalGo_subset (ls : List ℕ) (es : List Entry) :
    ∀ e ∈ kruskalGo ls es, e ∈ es := by
  induction es generalizing ls with
  | nil => intro e h; simp [kruskalGo] at h
  | cons x xs ih =>
    intro e h
    unfold kruskalGo at h
    by_cases hc : lbl ls x.row = lbl ls x.col
    · rw [if_pos hc] at h
      exact List.mem_cons_of_mem _ (ih ls e h)
    · rw [if_neg hc] at h
      rcases List.mem_cons.mp h with rfl | h
      · exact List.mem_cons_self _ _
      · exact List.mem_cons_of_mem _ (ih _ e h)

theorem mstOf_subset {n : ℕ} {g : List Entry} : ∀ e ∈ mstOf n g, e ∈ g := by
  intro e h
  have h1 := kruskalGo_subset _ _ e h
  rcases List.mem_map.mp h1 with ⟨pe, hpe, rfl⟩
  have h2 : pe ∈ g.enum := sortByKey_mem.mp hpe
  have h3 : pe.2 ∈ g.enum.map Prod.snd := List.mem_map.mpr ⟨pe, h2, rfl⟩
  rwa [List.enum_eq_enumFrom, List.enumFrom_map_snd] at h3

/-! Facts about the persistence scorer. -/

theorem persistEntry_degree_zero {mst : List Entry} {i : ℕ} (h : degree mst i = 0) :
    persistEntry mst i = some 0 := by
  unfold persistEntry
  rw [if_neg (by omega)]

theorem persistEntry_eq_none_iff {mst : List Entry} {i : ℕ} :
    persistEntry mst i = none ↔
      0 < degree mst i ∧ (mstRow mst i).filter (fun w => decide (0 < w)) = [] := by
  unfold persistEntry
  by_cases hd : 0 < degree mst i
  · rw [if_pos hd]
    constructor
    · intro h; exact ⟨hd, minQ_eq_none_iff.mp h⟩
    · intro h; rw [h.2]; rfl
  · rw [if_neg hd]; simp [hd]

theorem persistEntry_some_pos {mst : List Entry} {i : ℕ} {q : ℚ}
    (hd : 0 < degree mst i) (h : persistEntry mst i = some q) :
    q ∈ mstRow mst i ∧ 0 < q ∧ ∀ w ∈ mstRow mst i, 0 < w → q ≤ w := by
  unfold persistEntry at h
  rw [if_pos hd] at h
  have hm := minQ_mem h
  have hle := minQ_le h
  rcases List.mem_filter.mp hm with ⟨hmem, hq⟩
  refine ⟨hmem, by simpa using hq, ?_⟩
  intro w hw hwpos
  exact hle w (List.mem_filter.mpr ⟨hw, by simpa using hwpos⟩)

theorem persistsFrom_eq_none_iff {mst : List Entry} {is : List ℕ} :
    persistsFrom mst is = none ↔ ∃ i ∈ is, persistEntry mst i = none := by
  induction is with
  | nil => simp [persistsFrom]
  | cons i is ih =>
    unfold persistsFrom
    cases hpe : persistEntry mst i with
    | none => simp [hpe]
    | some q =>
      cases hps : persistsFrom mst is with
      | none =>
        simp only [List.mem_cons]
        constructor
        · intro _
          rcases ih.mp hps with ⟨j, hj, hjn⟩
          exact ⟨j, Or.inr hj, hjn⟩
        · intro h2
          trivial
      | some qs =>
        simp only [List.mem_cons]
        constructor
        · intro hc; exact absurd hc (by simp)
        · rintro ⟨j, hj | hj, hjn⟩
          · rw [hj] at hjn; rw [hpe] at hjn; exact absurd hjn (by simp)
          · have := ih.mpr ⟨j, hj, hjn⟩
            rw [this] at hps; exact absurd hps (by simp)

theorem persistsFrom_some_get {mst : List Entry} {is : List ℕ} {qs : List ℚ}
    (h : persistsFrom mst is = some qs) :
    qs.length = is.length ∧
      ∀ j, j < is.length → persistEntry mst (is.getD j 0) = some (qs.getD j 0) := by
  induction is generalizing qs with
  | nil =>
    unfold persistsFrom at h
    cases h
    exact ⟨rfl, by intro j hj; simp at hj⟩
  | cons i is ih =>
    unfold persistsFrom at h
    cases hpe : persistEntry mst i with
    | none => rw [hpe] at h; exact absurd h (by simp)
    | some q =>
      rw [hpe] at h
      cases hps : persistsFrom mst is with
      | none => rw [hps] at h; exact absurd h (by simp)
      | some qs0 =>
        rw [hps] at h
        cases h
        rcases ih hps with ⟨hlen, hidx⟩
        constructor
        · simp [hlen]
        · intro j hj
          cases j with
          | zero => simpa using hpe
          | succ j0 =>
            rw [List.getD_cons_succ, List.getD_cons_succ]
            exact hidx j0 (by simpa using hj)

/-! Facts about the ranking. -/

theorem mem_enum_getD {l : List ℚ} {p : ℕ × ℚ} (h : p ∈ l.enum) :
    p.1 < l.length ∧ l.getD p.1 0 = p.2 := by
  have h1 : l[p.1]? = some p.2 := by
    have := List.mk_mem_enum_iff_getElem? (i := p.1) (x := p.2) (l := l)
    exact this.mp (by simpa using h)
  rcases List.getElem?_eq_some_iff.mp h1 with ⟨hlt, hv⟩
  refine ⟨hlt, ?_⟩
  rw [List.getD_eq_getElem?_getD, h1]
  rfl

theorem argsortQ_perm (l : List ℚ) : (argsortQ l).Perm (List.range l.length) := by
  unfold argsortQ
  have h1 := (sortByKey_perm (fun p : ℕ × ℚ => (p.2, p.1)) l.enum).map Prod.fst
  rw [List.enum_eq_enumFrom, List.enumFrom_map_fst, ← List.range_eq_range'] at h1
  exact h1

theorem argsortQ_sorted (l : List ℚ) :
    (argsortQ l).Pairwise (fun a b => l.getD a 0 ≤ l.getD b 0) := by
  unfold argsortQ
  have hp := sortByKey_pairwise (fun p : ℕ × ℚ => (p.2, p.1)) l.enum
  have hp2 : (sortByKey (fun p : ℕ × ℚ => (p.2, p.1)) l.enum).Pairwise
      (fun p q => l.getD p.1 0 ≤ l.getD q.1 0) := by
    refine hp.imp_of_mem ?_
    intro a b ha hb hk
    have hea := (mem_enum_getD (sortByKey_mem.mp ha)).2
    have heb := (mem_enum_getD (sortByKey_mem.mp hb)).2
    rw [hea, heb]
    rcases hk with hlt | ⟨heq, _⟩
    · exact le_of_lt hlt
    · exact le_of_eq heq
  exact List.Pairwise.map _ (fun a b h => h) hp2

/-! Inversion of a successful pipeline run. -/

theorem rankStage_ok_inv {g F : List Entry} {n : ℕ} {r : RunResult}
    (h : rankStage g F n = .ok r) :
    r.graph = g ∧ r.forest = F ∧
    minQ (posWeights F) = some r.lmin ∧ maxQ (posWeights F) = some r.lmax ∧
    persistVec F n = some r.rawPersist ∧
    r.scores = r.rawPersist.map (fun p => (p - r.lmin) / (r.lmax - r.lmin)) ∧
    r.ranking = argsortQ r.scores := by
  unfold rankStage at h
  split at h
  next lmin lmax hmin hmax =>
    split at h
    · exact absurd h (by simp)
    next pr hpr =>
      injection h with h
      subst h
      exact ⟨rfl, rfl, hmin, hmax, hpr, rfl, rfl⟩
  · exact absurd h (by simp)

theorem pipeline_ok_inv {ps : List ℚ} {k : ℕ} {r : RunResult}
    (h : pipeline ps k = .ok r) :
    ¬(k < 1 ∨ ps.length ≤ k) ∧ ∃ zf, zeroFixOf ps k = some zf ∧
      r.graph = knnGraph ps k ∧ r.forest = forestFor ps k zf ∧
      minQ (posWeights r.forest) = some r.lmin ∧
      maxQ (posWeights r.forest) = some r.lmax ∧
      persistVec r.forest ps.length = some r.rawPersist ∧
      r.scores = r.rawPersist.map (fun p => (p - r.lmin) / (r.lmax - r.lmin)) ∧
      r.ranking = argsortQ r.scores := by
  unfold pipeline at h
  split at h
  · exact absurd h (by simp)
  next hcond =>
    refine ⟨hcond, ?_⟩
    split at h
    · exact absurd h (by simp)
    next zf hzf =>
      rcases rankStage_ok_inv h with ⟨hg, hf, hmin, hmax, hpv, hsc, hrank⟩
      refine ⟨zf, hzf, hg, hf, ?_, ?_, ?_, hsc, hrank⟩
      · rw [hf]; exact hmin
      · rw [hf]; exact hmax
      · rw [hf]; exact hpv

theorem pipeline_eq_rankStage {ps : List ℚ} {k : ℕ} {zf : ℚ}
    (hc : ¬(k < 1 ∨ ps.length ≤ k)) (hzf : zeroFixOf ps k = some zf) :
    pipeline ps k = rankStage (knnGraph ps k) (forestFor ps k zf) ps.length := by
  unfold pipeline
  rw [if_neg hc, hzf]

theorem s3_run : pipeline [0, 1] 1 = Except.ok s3res := by
  with_unfolding_all rfl

theorem s1_run : pipeline [0, 1, 2, 10] 3 = Except.ok s1res := by
  with_unfolding_all rfl

theorem s1_zf : zeroFixOf [0, 1, 2, 10] 3 = some (1/100000000) := by
  with_unfolding_all rfl

theorem s1_forest : forestFor [0, 1, 2, 10] 3 (1/100000000) =
    [Entry.mk 0 1 1, Entry.mk 1 2 1, Entry.mk 2 3 8] := by
  with_unfolding_all rfl

theorem s2_g : knnGraph [10, 0, 0] 2 =
    [Entry.mk 0 1 10, Entry.mk 0 2 10, Entry.mk 1 2 0, Entry.mk 1 0 10,
     Entry.mk 2 1 0, Entry.mk 2 0 10] := by
  with_unfolding_all rfl

theorem s2_zf : zeroFixOf [10, 0, 0] 2 = some (1/10000000) := by
  with_unfolding_all rfl

theorem s2_g2 : sanitize (1/10000000)
    [Entry.mk 0 1 10, Entry.mk 0 2 10, Entry.mk 1 2 0, Entry.mk 1 0 10,
     Entry.mk 2 1 0, Entry.mk 2 0 10] =
    [Entry.mk 0 1 10, Entry.mk 0 2 10, Entry.mk 1 2 (1/10000000), Entry.mk 1 0 10,
     Entry.mk 2 1 (1/10000000), Entry.mk 2 0 10] := by
  with_unfolding_all rfl

theorem s2_sorted : sortByKey (fun pe => (pe.2.w, pe.1))
    ([Entry.mk 0 1 10, Entry.mk 0 2 10, Entry.mk 1 2 (1/10000000), Entry.mk 1 0 10,
      Entry.mk 2 1 (1/10000000), Entry.mk 2 0 10].enum) =
    [(2, Entry.mk 1 2 (1/10000000)), (4, Entry.mk 2 1 (1/10000000)),
     (0, Entry.mk 0 1 10), (1, Entry.mk 0 2 10), (3, Entry.mk 1 0 10),
     (5, Entry.mk 2 0 10)] := by
  norm_num [sortByKey, List.insertionSort, List.orderedInsert, keyLe,
    List.enum, List.enumFrom]

theorem s2_mst : mstOf 3
    [Entry.mk 0 1 10, Entry.mk 0 2 10, Entry.mk 1 2 (1/10000000), Entry.mk 1 0 10,
     Entry.mk 2 1 (1/10000000), Entry.mk 2 0 10] =
    [Entry.mk 1 2 (1/10000000), Entry.mk 0 1 10] := by
  unfold mstOf
  rw [s2_sorted]
  with_unfolding_all rfl

theorem s2_res : restore (1/10000000)
    [Entry.mk 1 2 (1/10000000), Entry.mk 0 1 10] =
    [Entry.mk 1 2 0, Entry.mk 0 1 10] := by
  norm_num [restore]

theorem s2_forest : forestFor [10, 0, 0] 2 (1/10000000) =
    [Entry.mk 1 2 0, Entry.mk 0 1 10] := by
  unfold forestFor
  rw [s2_g]
  show restore (1/10000000) (mstOf 3 (sanitize (1/10000000) _)) = _
  rw [s2_g2, s2_mst, s2_res]

theorem s2_rank : rankStage
    [Entry.mk 0 1 10, Entry.mk 0 2 10, Entry.mk 1 2 0, Entry.mk 1 0 10,
     Entry.mk 2 1 0, Entry.mk 2 0 10]
    [Entry.mk 1 2 0, Entry.mk 0 1 10] 3 = Except.error PErr.scorerEmptyMin := by
  with_unfolding_all rfl

theorem s2_run : pipeline [10, 0, 0] 2 = Except.error PErr.scorerEmptyMin := by
  rw [pipeline_eq_rankStage (by decide) s2_zf, s2_g, s2_forest]
  exact s2_rank

theorem s4_g : knnGraph [0, 0, 0, 1] 2 =
    [Entry.mk 0 1 0, Entry.mk 0 2 0, Entry.mk 1 0 0, Entry.mk 1 2 0,
     Entry.mk 2 0 0, Entry.mk 2 1 0, Entry.mk 3 0 1, Entry.mk 3 1 1] := by
  with_unfolding_all rfl

theorem s4_zf : zeroFixOf [0, 0, 0, 1] 2 = some (1/100000000) := by
  with_unfolding_all rfl

theorem s4_g2 : sanitize (1/100000000)
    [Entry.mk 0 1 0, Entry.mk 0 2 0, Entry.mk 1 0 0, Entry.mk 1 2 0,
     Entry.mk 2 0 0, Entry.mk 2 1 0, Entry.mk 3 0 1, Entry.mk 3 1 1] =
    [Entry.mk 0 1 (1/100000000), Entry.mk 0 2 (1/100000000),
     Entry.mk 1 0 (1/100000000), Entry.mk 1 2 (1/100000000),
     Entry.mk 2 0 (1/100000000), Entry.mk 2 1 (1/100000000),
     Entry.mk 3 0 1, Entry.mk 3 1 1] := by
  with_unfolding_all rfl

theorem s4_sorted : sortByKey (fun pe => (pe.2.w, pe.1))
    ([Entry.mk 0 1 (1/100000000), Entry.mk 0 2 (1/100000000),
      Entry.mk 1 0 (1/100000000), Entry.mk 1 2 (1/100000000),
      Entry.mk 2 0 (1/100000000), Entry.mk 2 1 (1/100000000),
      Entry.mk 3 0 1, Entry.mk 3 1 1].enum) =
    [(0, Entry.mk 0 1 (1/100000000)), (1, Entry.mk 0 2 (1/100000000)),
     (2, Entry.mk 1 0 (1/100000000)), (3, Entry.mk 1 2 (1/100000000)),
     (4, Entry.mk 2 0 (1/100000000)), (5, Entry.mk 2 1 (1/100000000)),
     (6, Entry.mk 3 0 1), (7, Entry.mk 3 1 1)] := by
  norm_num [sortByKey, List.insertionSort, List.orderedInsert, keyLe,
    List.enum, List.enumFrom]

theorem s4_mst : mstOf 4
    [Entry.mk 0 1 (1/100000000), Entry.mk 0 2 (1/100000000),
     Entry.mk 1 0 (1/100000000), Entry.mk 1 2 (1/100000000),
     Entry.mk 2 0 (1/100000000), Entry.mk 2 1 (1/100000000),
     Entry.mk 3 0 1, Entry.mk 3 1 1] =
    [Entry.mk 0 1 (1/100000000), Entry.mk 0 2 (1/100000000), Entry.mk 3 0 1] := by
  unfold mstOf
  rw [s4_sorted]
  with_unfolding_all rfl

theorem s4_res : restore (1/100000000)
    [Entry.mk 0 1 (1/100000000), Entry.mk 0 2 (1/100000000), Entry.mk 3 0 1] =
    [Entry.mk 0 1 0, Entry.mk 0 2 0, Entry.mk 3 0 1] := by
  norm_num [restore]

theorem s4_forest : forestFor [0, 0, 0, 1] 2 (1/100000000) =
    [Entry.mk 0 1 0, Entry.mk 0 2 0, Entry.mk 3 0 1] := by
  unfold forestFor
  rw [s4_g]
  show restore (1/100000000) (mstOf 4 (sanitize (1/100000000) _)) = _
  rw [s4_g2, s4_mst, s4_res]

theorem s5_g : knnGraph [0, 0, 3, 7] 2 =
    [Entry.mk 0 1 0, Entry.mk 0 2 3, Entry.mk 1 0 0, Entry.mk 1 2 3,
     Entry.mk 2 0 3, Entry.mk 2 1 3, Entry.mk 3 2 4, Entry.mk 3 0 7] := by
  with_unfolding_all rfl

theorem s5_zf : zeroFixOf [0, 0, 3, 7] 2 = some (3/100000000) := by
  with_unfolding_all rfl

theorem s5_g2 : sanitize (3/100000000)
    [Entry.mk 0 1 0, Entry.mk 0 2 3, Entry.mk 1 0 0, Entry.mk 1 2 3,
     Entry.mk 2 0 3, Entry.mk 2 1 3, Entry.mk 3 2 4, Entry.mk 3 0 7] =
    [Entry.mk 0 1 (3/100000000), Entry.mk 0 2 3, Entry.mk 1 0 (3/100000000),
     Entry.mk 1 2 3, Entry.mk 2 0 3, Entry.mk 2 1 3, Entry.mk 3 2 4,
     Entry.mk 3 0 7] := by
  with_unfolding_all rfl

theorem s5_sorted : sortByKey (fun pe => (pe.2.w, pe.1))
    ([Entry.mk 0 1 (3/100000000), Entry.mk 0 2 3, Entry.mk 1 0 (3/100000000),
      Entry.mk 1 2 3, Entry.mk 2 0 3, Entry.mk 2 1 3, Entry.mk 3 2 4,
      Entry.mk 3 0 7].enum) =
    [(0, Entry.mk 0 1 (3/100000000)), (2, Entry.mk 1 0 (3/100000000)),
     (1, Entry.mk 0 2 3), (3, Entry.mk 1 2 3), (4, Entry.mk 2 0 3),
     (5, Entry.mk 2 1 3), (6, Entry.mk 3 2 4), (7, Entry.mk 3 0 7)] := by
  norm_num [sortByKey, List.insertionSort, List.orderedInsert, keyLe,
    List.enum, List.enumFrom]

theorem s5_mst : mstOf 4
    [Entry.mk 0 1 (3/100000000), Entry.mk 0 2 3, Entry.mk 1 0 (3/100000000),
     Entry.mk 1 2 3, Entry.mk 2 0 3, Entry.mk 2 1 3, Entry.mk 3 2 4,
     Entry.mk 3 0 7] =
    [Entry.mk 0 1 (3/100000000), Entry.mk 0 2 3, Entry.mk 3 2 4] := by
  unfold mstOf
  rw [s5_sorted]
  with_unfolding_all rfl

theorem s5_res : restore (3/100000000)
    [Entry.mk 0 1 (3/100000000), Entry.mk 0 2 3, Entry.mk 3 2 4] =
    [Entry.mk 0 1 0, Entry.mk 0 2 3, Entry.mk 3 2 4] := by
  norm_num [restore]

theorem s5_forest : forestFor [0, 0, 3, 7] 2 (3/100000000) =
    [Entry.mk 0 1 0, Entry.mk 0 2 3, Entry.mk 3 2 4] := by
  unfold forestFor
  rw [s5_g]
  show restore (3/100000000) (mstOf 4 (sanitize (3/100000000) _)) = _
  rw [s5_g2, s5_mst, s5_res]

theorem s5_rank : rankStage
    [Entry.mk 0 1 0, Entry.mk 0 2 3, Entry.mk 1 0 0, Entry.mk 1 2 3,
     Entry.mk 2 0 3, Entry.mk 2 1 3, Entry.mk 3 2 4, Entry.mk 3 0 7]
    [Entry.mk 0 1 0, Entry.mk 0 2 3, Entry.mk 3 2 4] 4 = Except.ok s5res := by
  with_unfolding_all rfl

theorem s5_run : pipeline [0, 0, 3, 7] 2 = Except.ok s5res := by
  rw [pipeline_eq_rankStage (by decide) s5_zf, s5_g, s5_forest]
  exact s5_rank

/-! Index-level helpers. -/

theorem getD_range_lt {n j : ℕ} (h : j < n) : (List.range n).getD j 0 = j := by
  rw [List.getD_eq_getElem?_getD,
    List.getElem?_eq_getElem (by simpa using h), List.getElem_range]
  rfl

theorem getD_map_lt (f : ℚ → ℚ) {l : List ℚ} {i : ℕ} (h : i < l.length) :
    (l.map f).getD i 0 = f (l.getD i 0) := by
  rw [List.getD_eq_getElem?_getD, List.getD_eq_getElem?_getD, List.getElem?_map,
    List.getElem?_eq_getElem h]
  rfl

theorem mem_mstRow {mst : List Entry} {i : ℕ} {q : ℚ} :
    q ∈ mstRow mst i ↔ ∃ e ∈ mst, e.row = i ∧ e.w = q := by
  unfold mstRow
  constructor
  · intro h
    rcases List.mem_map.mp h with ⟨e, he, rfl⟩
    rcases List.mem_filter.mp he with ⟨hmem, hrow⟩
    exact ⟨e, hmem, by simpa using hrow, rfl⟩
  · rintro ⟨e, he, hrow, rfl⟩
    exact List.mem_map.mpr ⟨e, List.mem_filter.mpr ⟨he, by simpa using hrow⟩, rfl⟩

/-! Branch-level helpers for the pipeline. -/

theorem pipeline_zf_none {ps : List ℚ} {k : ℕ} (hc : ¬(k < 1 ∨ ps.length ≤ k))
    (hzf : zeroFixOf ps k = none) :
    pipeline ps k = Except.error PErr.degenerateGraph := by
  unfold pipeline
  rw [if_neg hc, hzf]

theorem rankStage_cases (g F : List Entry) (n : ℕ) :
    rankStage g F n = Except.error PErr.degenerateRange ∨
    rankStage g F n = Except.error PErr.scorerEmptyMin ∨
    ∃ r, rankStage g F n = Except.ok r := by
  unfold rankStage
  cases hmin : minQ (posWeights F) with
  | none => exact Or.inl rfl
  | some lmin =>
    cases hmax : maxQ (posWeights F) with
    | none => exact Or.inl rfl
    | some lmax =>
      cases hpv : persistVec F n with
      | none => exact Or.inr (Or.inl rfl)
      | some pr => exact Or.inr (Or.inr ⟨_, rfl⟩)

theorem pipeline_some_zf_result {ps : List ℚ} {k : ℕ} {zf : ℚ}
    (hc : ¬(k < 1 ∨ ps.length ≤ k)) (hzf : zeroFixOf ps k = some zf) :
    pipeline ps k = Except.error PErr.degenerateRange ∨
    pipeline ps k = Except.error PErr.scorerEmptyMin ∨
    ∃ r, pipeline ps k = Except.ok r := by
  rw [pipeline_eq_rankStage hc hzf]
  exact rankStage_cases _ _ _

theorem pipeline_scores_spec {ps : List ℚ} {k : ℕ} {r : RunResult}
    (h : pipeline ps k = Except.ok r) :
    r.scores.length = ps.length ∧ r.rawPersist.length = ps.length ∧
    ∀ i, i < ps.length →
      r.scores.getD i 0 = (r.rawPersist.getD i 0 - r.lmin) / (r.lmax - r.lmin) ∧
      persistEntry r.forest i = some (r.rawPersist.getD i 0) := by
  rcases pipeline_ok_inv h with ⟨-, ⟨zf, -, -, -, -, -, hpv, hsc, -⟩⟩
  rcases persistsFrom_some_get hpv with ⟨hlen, hidx⟩
  have hlen2 : r.rawPersist.length = ps.length := by simpa using hlen
  refine ⟨by rw [hsc]; simpa using hlen2, hlen2, ?_⟩
  intro i hi
  constructor
  · rw [hsc]; exact getD_map_lt _ (by omega)
  · have h1 := hidx i (by simpa using hi)
    rwa [getD_range_lt hi] at h1

theorem pipeline_score_bounds {ps : List ℚ} {k : ℕ} {r : RunResult}
    (h : pipeline ps k = Except.ok r) (hlt : r.lmin < r.lmax) :
    0 < r.lmin ∧ ∀ i, i < ps.length →
      (0 < degree r.forest i → 0 ≤ r.scores.getD i 0 ∧ r.scores.getD i 0 ≤ 1) ∧
      (degree r.forest i = 0 → r.scores.getD i 0 < 0) := by
  rcases pipeline_ok_inv h with ⟨-, ⟨zf, -, -, -, hmin, hmax, -, -, -⟩⟩
  have hlminpos : 0 < r.lmin := (mem_posWeights.mp (minQ_mem hmin)).2
  have hspec := pipeline_scores_spec h
  have hden : 0 < r.lmax - r.lmin := by linarith
  refine ⟨hlminpos, ?_⟩
  intro i hi
  have hsceq := (hspec.2.2 i hi).1
  have hpe := (hspec.2.2 i hi).2
  constructor
  · intro hdeg
    rcases persistEntry_some_pos hdeg hpe with ⟨hmem, hqpos, -⟩
    have hq_pw : r.rawPersist.getD i 0 ∈ posWeights r.forest := by
      rcases mem_mstRow.mp hmem with ⟨e, he, -, hew⟩
      exact mem_posWeights.mpr ⟨⟨e, he, hew⟩, hqpos⟩
    have h1 : r.lmin ≤ r.rawPersist.getD i 0 := minQ_le hmin _ hq_pw
    have h2 : r.rawPersist.getD i 0 ≤ r.lmax := maxQ_ge hmax _ hq_pw
    rw [hsceq]
    constructor
    · apply div_nonneg _ (le_of_lt hden); linarith
    · rw [div_le_one hden]; linarith
  · intro hdeg
    have hq0 : persistEntry r.forest i = some 0 := persistEntry_degree_zero hdeg
    rw [hq0] at hpe
    have hz : r.rawPersist.getD i 0 = 0 := by
      injection hpe with hpe; exact hpe.symm
    rw [hsceq, hz]
    apply div_neg_of_neg_of_pos _ hden
    linarith

/-- C1 (counterexample): on the four colinear points 0, 1, 2, 10 with
k = 3 the program does not produce the claimed raw persistence vector
(1, 1, 1, 8) nor the claimed normalized score vector (0, 0, 0, 1). -/
theorem C1_counterexample :
    (pipeline [0, 1, 2, 10] 3).toOption.map RunResult.rawPersist ≠ some [1, 1, 1, 8] ∧
    (pipeline [0, 1, 2, 10] 3).toOption.map RunResult.scores ≠ some [0, 0, 0, 1] := by
  rw [s1_run]
  constructor
  · with_unfolding_all decide
  · with_unfolding_all decide

/-- C1 (amended): on the four colinear points 0, 1, 2, 10 with k = 3 the
pipeline produces the claimed spanning forest edges (0,1) weight 1, (1,2)
weight 1, (2,3) weight 8, and the claimed lmin = 1 and lmax = 8, but the
raw persistence vector is (1, 1, 8, 0) and the normalized score vector is
(0, 0, 1, -1/7): the scorer reads only the stored row of each vertex, so
vertex 2 gets the weight 8 of its stored entry (2,3) instead of the
incident minimum 1, and vertex 3, whose stored row is empty, keeps the
zero default, which normalizes to a negative score. -/
theorem C1_amended_run : pipeline [0, 1, 2, 10] 3 = Except.ok s1res := s1_run

/-- C2 (counterexample): in the forest computed for the points 0, 1, 2, 10
with k = 3, vertex 3 is incident to the stored edge (2,3) of weight 8, so
the claimed scorer value is the incident minimum 8 (and vertex 3 is not
disconnected in the incident sense), yet the program leaves persist[3] at
the zero default because its stored row is empty. -/
theorem C2_counterexample :
    zeroFixOf [0, 1, 2, 10] 3 = some (1/100000000) ∧
    forestFor [0, 1, 2, 10] 3 (1/100000000) =
      [Entry.mk 0 1 1, Entry.mk 1 2 1, Entry.mk 2 3 8] ∧
    persistEntry [Entry.mk 0 1 1, Entry.mk 1 2 1, Entry.mk 2 3 8] 3 = some 0 ∧
    persistSpecIncident [Entry.mk 0 1 1, Entry.mk 1 2 1, Entry.mk 2 3 8] 3 = some 8 ∧
    persistEntry [Entry.mk 0 1 1, Entry.mk 1 2 1, Entry.mk 2 3 8] 3 ≠
      persistSpecIncident [Entry.mk 0 1 1, Entry.mk 1 2 1, Entry.mk 2 3 8] 3 := by
  refine ⟨s1_zf, s1_forest, ?_, ?_, ?_⟩
  · with_unfolding_all rfl
  · with_unfolding_all rfl
  · with_unfolding_all decide

/-- C2 (amended): the scorer is a function of the stored rows only: when
row i is empty the zero default is kept (not a disconnected sentinel);
when row i is non-empty and has a strictly positive value, persist[i] is
the minimum strictly positive value stored in row i (edges stored with i
as the column are not consulted); and the scorer fails exactly on a
non-empty row whose stored values are all zero. -/
theorem C2_amended (mst : List Entry) (i : ℕ) :
    (degree mst i = 0 → persistEntry mst i = some 0) ∧
    (∀ q, persistEntry mst i = some q → 0 < degree mst i →
        q ∈ mstRow mst i ∧ 0 < q ∧ ∀ w ∈ mstRow mst i, 0 < w → q ≤ w) ∧
    (persistEntry mst i = none ↔
        0 < degree mst i ∧ ∀ w ∈ mstRow mst i, ¬ 0 < w) := by
  refine ⟨fun h => persistEntry_degree_zero h,
    fun q hq hd => persistEntry_some_pos hd hq, ?_⟩
  rw [persistEntry_eq_none_iff]
  constructor
  · rintro ⟨hd, hfil⟩
    refine ⟨hd, ?_⟩
    intro w hw hpos
    have : w ∈ (mstRow mst i).filter (fun w => decide (0 < w)) :=
      List.mem_filter.mpr ⟨hw, by simpa using hpos⟩
    simp [hfil] at this
  · rintro ⟨hd, hall⟩
    refine ⟨hd, ?_⟩
    rw [List.filter_eq_nil_iff]
    intro w hw
    simpa using hall w hw

/-- C2 (amended, witness): instantiation of the row-minimum description on
a one-edge forest. -/
theorem C2_amended_witness :
    (1:ℚ) ∈ mstRow [Entry.mk 0 1 1] 0 ∧ (0:ℚ) < 1 := by
  have h := (C2_amended [Entry.mk 0 1 1] 0).2.1 1
    (by with_unfolding_all rfl) (by with_unfolding_all decide)
  exact ⟨h.1, h.2.1⟩

/-- C3 (counterexample): on the points 0, 1, 2, 10 with k = 3 the emitted
normalized scores contain the plain numeric value -1/7, which is below 0
and is not a sentinel: the diagnostic count of finite scores below 0 is 1,
not 0, on this input. -/
theorem C3_counterexample :
    (pipeline [0, 1, 2, 10] 3).toOption.map RunResult.scores = some [0, 0, 1, -(1/7)] ∧
    (-(1/7) : ℚ) < 0 := by
  constructor
  · rw [s1_run]; with_unfolding_all rfl
  · norm_num

/-- C3 (amended): whenever a run succeeds and its normalization range is
non-degenerate, scores of vertices with a non-empty stored forest row lie
in the interval from 0 to 1, and every vertex with an empty stored row is
assigned a strictly negative numeric score (the normalized zero default)
rather than a sentinel, so the count of scores below 0 equals the number
of such vertices. -/
theorem C3_amended (ps : List ℚ) (k : ℕ) (r : RunResult)
    (h : pipeline ps k = Except.ok r) (hlt : r.lmin < r.lmax) :
    ∀ i, i < ps.length →
      (0 < degree r.forest i → 0 ≤ r.scores.getD i 0 ∧ r.scores.getD i 0 ≤ 1) ∧
      (degree r.forest i = 0 → r.scores.getD i 0 < 0) :=
  (pipeline_score_bounds h hlt).2

/-- C3 (amended, witness): on the colinear scenario the disconnected-row
vertex 3 receives a strictly negative score. -/
theorem C3_amended_witness : s1res.scores.getD 3 0 < 0 :=
  (C3_amended [0, 1, 2, 10] 3 s1res s1_run (by with_unfolding_all decide) 3
    (by with_unfolding_all decide)).2 (by with_unfolding_all rfl)

/-- C9: the pipeline is a pure function of the input points and the
neighbor count; identical inputs and parameters give identical graphs,
forests, persistence vectors, scores and rankings. -/
theorem C9_deterministic (ps1 ps2 : List ℚ) (k1 k2 : ℕ)
    (hps : ps1 = ps2) (hk : k1 = k2) : pipeline ps1 k1 = pipeline ps2 k2 := by
  subst hps; subst hk; rfl

/-- C9 (witness): determinism instantiated on the colinear scenario. -/
theorem C9_deterministic_witness :
    pipeline [0, 1, 2, 10] 3 = pipeline [0, 1, 2, 10] 3 :=
  C9_deterministic [0, 1, 2, 10] [0, 1, 2, 10] 3 3 rfl rfl

theorem s3_zf : zeroFixOf [0, 1] 1 = some (1/100000000) := by
  with_unfolding_all rfl

/-- C5: with valid parameters the pipeline fails at the sanitizer exactly
when every stored weight of the neighbor graph is zero (no strictly
positive stored weight to derive the epsilon scale from); in particular a
duplicate pair among otherwise distinct points leaves positive stored
weights and the failure does not occur. -/
theorem C5_degenerate_iff (ps : List ℚ) (k : ℕ) (h1 : 1 ≤ k) (h2 : k < ps.length) :
    pipeline ps k = Except.error PErr.degenerateGraph ↔
      ∀ e ∈ knnGraph ps k, e.w = 0 := by
  have hc : ¬(k < 1 ∨ ps.length ≤ k) := by omega
  constructor
  · intro h
    cases hzf : zeroFixOf ps k with
    | none =>
      intro e he
      have hmq : minQ (posWeights (knnGraph ps k)) = none := by
        unfold zeroFixOf at hzf
        exact Option.map_eq_none'.mp hzf
      have hnotpos := posWeights_eq_nil_iff.mp (minQ_eq_none_iff.mp hmq) e he
      exact le_antisymm (not_lt.mp hnotpos) (knnGraph_w_nonneg he)
    | some zf =>
      rcases pipeline_some_zf_result hc hzf with hr | hr | ⟨r, hr⟩ <;>
        · rw [hr] at h; exact absurd h (by simp)
  · intro hall
    have hpw : posWeights (knnGraph ps k) = [] :=
      posWeights_eq_nil_iff.mpr (fun e he => by rw [hall e he]; exact lt_irrefl 0)
    have hzf : zeroFixOf ps k = none := by
      unfold zeroFixOf
      rw [minQ_eq_none_iff.mpr hpw]
      rfl
    exact pipeline_zf_none hc hzf

/-- C5 (witness): on the points 0, 0, 3, 7 (a duplicate pair among
otherwise distinct points) with k = 2 the sanitizer failure is not
raised. -/
theorem C5_degenerate_iff_witness :
    pipeline [0, 0, 3, 7] 2 ≠ Except.error PErr.degenerateGraph := by
  intro h
  have hall := (C5_degenerate_iff [0, 0, 3, 7] 2 (by norm_num) (by norm_num)).mp h
  have hmem : Entry.mk 0 2 3 ∈ knnGraph [0, 0, 3, 7] 2 := by
    with_unfolding_all decide
  have h3 : (3:ℚ) = 0 := hall (Entry.mk 0 2 3) hmem
  norm_num at h3

/-- C6 (counterexample): on the points 0, 1 with k = 1 the run reaches the
normalizer with lmin = lmax = 1 and completes without raising any error:
the claimed failure on a collapsed range does not happen, and every score
is computed by the division whose denominator lmax - lmin is 0 there. -/
theorem C6_counterexample :
    (pipeline [0, 1] 1).toOption.map (fun r => (r.lmin, r.lmax)) = some (1, 1) ∧
    pipeline [0, 1] 1 ≠ Except.error PErr.degenerateRange ∧
    pipeline [0, 1] 1 ≠ Except.error PErr.scorerEmptyMin ∧
    pipeline [0, 1] 1 ≠ Except.error PErr.degenerateGraph ∧
    pipeline [0, 1] 1 ≠ Except.error PErr.invalidParameter := by
  rw [s3_run]
  exact ⟨by with_unfolding_all rfl, by simp, by simp, by simp, by simp⟩

/-- C6 (amended): every successful run computes each score by the single
division (persist[i] - lmin) / (lmax - lmin), with no guard on the
denominator (when lmin = lmax the division is performed with denominator
zero); and with valid parameters and a sanitizer epsilon available the
range computation fails exactly when the restored forest has no strictly
positive stored weight. -/
theorem C6_amended :
    (∀ (ps : List ℚ) (k : ℕ) (r : RunResult), pipeline ps k = Except.ok r →
        r.scores = r.rawPersist.map (fun p => (p - r.lmin) / (r.lmax - r.lmin))) ∧
    (∀ (ps : List ℚ) (k : ℕ) (zf : ℚ), ¬(k < 1 ∨ ps.length ≤ k) →
        zeroFixOf ps k = some zf →
        (pipeline ps k = Except.error PErr.degenerateRange ↔
          posWeights (forestFor ps k zf) = [])) := by
  constructor
  · intro ps k r h
    rcases pipeline_ok_inv h with ⟨-, ⟨zf, -, -, -, -, -, -, hsc, -⟩⟩
    exact hsc
  · intro ps k zf hc hzf
    constructor
    · intro h
      rw [pipeline_eq_rankStage hc hzf] at h
      unfold rankStage at h
      cases hmin : minQ (posWeights (forestFor ps k zf)) with
      | none => exact minQ_eq_none_iff.mp hmin
      | some lmin =>
        cases hmax : maxQ (posWeights (forestFor ps k zf)) with
        | none => exact maxQ_eq_none_iff.mp hmax
        | some lmax =>
          rw [hmin, hmax] at h
          cases hpv : persistVec (forestFor ps k zf) ps.length with
          | none => rw [hpv] at h; exact absurd h (by simp)
          | some pr => rw [hpv] at h; exact absurd h (by simp)
    · intro hpw
      rw [pipeline_eq_rankStage hc hzf]
      unfold rankStage
      rw [minQ_eq_none_iff.mpr hpw]

/-- C6 (amended, witness): on the collapsed-range run over the points 0, 1
the scores are computed by the zero-denominator division and the range
error is not raised. -/
theorem C6_amended_witness :
    s3res.scores = s3res.rawPersist.map
      (fun p => (p - s3res.lmin) / (s3res.lmax - s3res.lmin)) ∧
    pipeline [0, 1] 1 ≠ Except.error PErr.degenerateRange := by
  constructor
  · exact C6_amended.1 [0, 1] 1 s3res s3_run
  · intro h
    have h2 := (C6_amended.2 [0, 1] 1 (1/100000000) (by norm_num) s3_zf).mp h
    exact absurd h2 (by with_unfolding_all decide)

/-- C8: the pipeline fails with the parameter-validation error exactly
when k < 1 or k is at least the number of points; the error aborts the run
before any graph is built. -/
theorem C8_invalid_param_iff (ps : List ℚ) (k : ℕ) :
    pipeline ps k = Except.error PErr.invalidParameter ↔
      (k < 1 ∨ ps.length ≤ k) := by
  constructor
  · intro h
    by_contra hc
    cases hzf : zeroFixOf ps k with
    | none =>
      rw [pipeline_zf_none hc hzf] at h
      exact absurd h (by simp)
    | some zf =>
      rcases pipeline_some_zf_result hc hzf with hr | hr | ⟨r, hr⟩ <;>
        · rw [hr] at h; exact absurd h (by simp)
  · intro h
    unfold pipeline
    rw [if_pos h]

/-- C7 (counterexample): on the points 0, 1, 2, 10 with k = 3 the emitted
ranking is (3, 0, 1, 2): vertex 3, whose stored forest row is empty (the
disconnected case), is included and sorts first, before all finite-scored
vertices, not last and not excluded. -/
theorem C7_counterexample :
    (pipeline [0, 1, 2, 10] 3).toOption.map RunResult.ranking = some [3, 0, 1, 2] ∧
    zeroFixOf [0, 1, 2, 10] 3 = some (1/100000000) ∧
    degree (forestFor [0, 1, 2, 10] 3 (1/100000000)) 3 = 0 ∧
    0 < degree (forestFor [0, 1, 2, 10] 3 (1/100000000)) 0 := by
  refine ⟨?_, s1_zf, ?_, ?_⟩
  · rw [s1_run]; with_unfolding_all rfl
  · rw [s1_forest]; with_unfolding_all rfl
  · rw [s1_forest]; with_unfolding_all decide

/-- C7 (amended): on a successful run with a non-degenerate range the
emitted ranking is a permutation of all vertex indices, ascending by
score, and every vertex with an empty stored forest row (the disconnected
case) sorts before every vertex with a stored row entry, because its
normalized zero default is strictly negative; disconnected vertices are
neither excluded nor sorted last. -/
theorem C7_amended (ps : List ℚ) (k : ℕ) (r : RunResult)
    (h : pipeline ps k = Except.ok r) (hlt : r.lmin < r.lmax) :
    r.ranking.Perm (List.range ps.length) ∧
    r.ranking.Pairwise (fun a b => r.scores.getD a 0 ≤ r.scores.getD b 0) ∧
    r.ranking.Pairwise (fun a b => degree r.forest b = 0 → degree r.forest a = 0) := by
  have hrank : r.ranking = argsortQ r.scores := (pipeline_ok_inv h).2.choose_spec.2.2.2.2.2.2.2
  have hslen : r.scores.length = ps.length := (pipeline_scores_spec h).1
  have hperm : r.ranking.Perm (List.range ps.length) := by
    rw [hrank]
    have hp := argsortQ_perm r.scores
    rwa [hslen] at hp
  have hsorted : r.ranking.Pairwise (fun a b => r.scores.getD a 0 ≤ r.scores.getD b 0) := by
    rw [hrank]; exact argsortQ_sorted r.scores
  refine ⟨hperm, hsorted, ?_⟩
  have hbounds := (pipeline_score_bounds h hlt).2
  refine hsorted.imp_of_mem ?_
  intro a b ha hb hab hdegb
  have ha2 : a < ps.length := List.mem_range.mp (hperm.mem_iff.mp ha)
  have hb2 : b < ps.length := List.mem_range.mp (hperm.mem_iff.mp hb)
  by_contra hda
  have hda2 : 0 < degree r.forest a := Nat.pos_of_ne_zero hda
  have h1 := (hbounds a ha2).1 hda2
  have h2 := (hbounds b hb2).2 hdegb
  linarith

/-- C7 (amended, witness): on the colinear scenario the emitted ranking is
a permutation of the four vertex indices. -/
theorem C7_amended_witness :
    s1res.ranking.Perm (List.range ([0, 1, 2, 10] : List ℚ).length) :=
  (C7_amended [0, 1, 2, 10] 3 s1res s1_run (by with_unfolding_all decide)).1

theorem knnGraph_pos_of_distinct {ps : List ℚ} {k : ℕ}
    (hd : ∀ i ∈ List.range ps.length, ∀ j ∈ List.range ps.length,
        i ≠ j → ps.getD i 0 ≠ ps.getD j 0) :
    ∀ e ∈ knnGraph ps k, 0 < e.w := by
  intro e he
  rcases knnGraph_mem he with ⟨hrow, hcol, hne, hw⟩
  rw [hw]
  unfold dist1
  apply abs_pos.mpr
  apply sub_ne_zero.mpr
  exact hd e.row (List.mem_range.mpr hrow) e.col (List.mem_range.mpr hcol)
    (fun hcon => hne (hcon ▸ rfl))

/-- C10 (counterexample): on the points 10, 0, 0 with k = 2 (a duplicate
pair whose restored zero edge is the only stored entry of row 1) the row
of vertex 1 has a stored entry, so its degree is positive, yet the set of
strictly positive values of that row is empty, and the scoring loop fails
on the empty minimum: the error branch the claim calls unreachable is
reached. -/
theorem C10_counterexample :
    pipeline [10, 0, 0] 2 = Except.error PErr.scorerEmptyMin ∧
    zeroFixOf [10, 0, 0] 2 = some (1/10000000) ∧
    degree (forestFor [10, 0, 0] 2 (1/10000000)) 1 = 1 ∧
    (mstRow (forestFor [10, 0, 0] 2 (1/10000000)) 1).filter
      (fun w => decide (0 < w)) = [] := by
  refine ⟨s2_run, s2_zf, ?_, ?_⟩
  · rw [s2_forest]; with_unfolding_all rfl
  · rw [s2_forest]; with_unfolding_all rfl

/-- C10 (amended): the empty-minimum branch of the scorer is unreachable
for point sets with pairwise distinct coordinates (then every stored
forest value is strictly positive, so a non-empty row always has a
positive entry), but it is reachable in general: a row whose only stored
entries were restored to zero has positive degree and an empty positive
selection, as the counterexample shows. -/
theorem C10_amended (ps : List ℚ) (k : ℕ)
    (hd : ∀ i ∈ List.range ps.length, ∀ j ∈ List.range ps.length,
        i ≠ j → ps.getD i 0 ≠ ps.getD j 0) :
    pipeline ps k ≠ Except.error PErr.scorerEmptyMin := by
  intro h
  by_cases hc : k < 1 ∨ ps.length ≤ k
  · unfold pipeline at h
    rw [if_pos hc] at h
    exact absurd h (by simp)
  cases hzf : zeroFixOf ps k with
  | none =>
    rw [pipeline_zf_none hc hzf] at h
    exact absurd h (by simp)
  | some zf =>
    have hmap : ∃ m, minQ (posWeights (knnGraph ps k)) = some m ∧ zf = m * epsFactor := by
      unfold zeroFixOf at hzf
      cases hm : minQ (posWeights (knnGraph ps k)) with
      | none => rw [hm] at hzf; exact absurd hzf (by simp)
      | some m =>
        rw [hm] at hzf
        refine ⟨m, rfl, ?_⟩
        injection hzf with hzf
        exact hzf.symm
    rcases hmap with ⟨m, hm, rfl⟩
    have hmpos : 0 < m := (mem_posWeights.mp (minQ_mem hm)).2
    have hzflt : m * epsFactor < m := by
      have he1 : epsFactor < 1 := by norm_num [epsFactor]
      calc m * epsFactor < m * 1 := by exact mul_lt_mul_of_pos_left he1 hmpos
        _ = m := mul_one m
    have hposg : ∀ e ∈ knnGraph ps k, 0 < e.w := knnGraph_pos_of_distinct hd
    have hsan : sanitize (m * epsFactor) (knnGraph ps k) = knnGraph ps k :=
      sanitize_eq_self (fun e he => ne_of_gt (hposg e he))
    have hmstge : ∀ e ∈ mstOf ps.length (knnGraph ps k), m ≤ e.w := by
      intro e he
      have hg := mstOf_subset e he
      exact minQ_le hm _ (mem_posWeights.mpr ⟨⟨e, hg, rfl⟩, hposg e hg⟩)
    have hres : restore (m * epsFactor) (mstOf ps.length (knnGraph ps k)) =
        mstOf ps.length (knnGraph ps k) := by
      apply restore_eq_self
      intro e he hcon
      have := hmstge e he
      rw [hcon] at this
      linarith
    have hforest : forestFor ps k (m * epsFactor) = mstOf ps.length (knnGraph ps k) := by
      unfold forestFor
      rw [hsan, hres]
    have hfpos : ∀ e ∈ forestFor ps k (m * epsFactor), 0 < e.w := by
      rw [hforest]
      intro e he
      exact hposg e (mstOf_subset e he)
    have hpv : persistVec (forestFor ps k (m * epsFactor)) ps.length ≠ none := by
      intro hn
      rcases persistsFrom_eq_none_iff.mp hn with ⟨i, hi, hpe⟩
      rcases persistEntry_eq_none_iff.mp hpe with ⟨hdeg, hfil⟩
      rcases hrow : mstRow (forestFor ps k (m * epsFactor)) i with _ | ⟨w, ws⟩
      · unfold degree at hdeg
        rw [hrow] at hdeg
        simp at hdeg
      · have hwmem : w ∈ mstRow (forestFor ps k (m * epsFactor)) i := by
          rw [hrow]; exact List.mem_cons_self _ _
        rcases mem_mstRow.mp hwmem with ⟨e, hemem, -, hew⟩
        have hwpos : 0 < w := hew ▸ hfpos e hemem
        have hwf : w ∈ (mstRow (forestFor ps k (m * epsFactor)) i).filter
            (fun w => decide (0 < w)) :=
          List.mem_filter.mpr ⟨hwmem, by simpa using hwpos⟩
        rw [hfil] at hwf
        simp at hwf
    rw [pipeline_eq_rankStage hc hzf] at h
    unfold rankStage at h
    cases hmin2 : minQ (posWeights (forestFor ps k (m * epsFactor))) with
    | none => rw [hmin2] at h; exact absurd h (by simp)
    | some lmin =>
      cases hmax2 : maxQ (posWeights (forestFor ps k (m * epsFactor))) with
      | none => rw [hmin2, hmax2] at h; exact absurd h (by simp)
      | some lmax =>
        rw [hmin2, hmax2] at h
        cases hpv2 : persistVec (forestFor ps k (m * epsFactor)) ps.length with
        | none => exact hpv hpv2
        | some pr => rw [hpv2] at h; exact absurd h (by simp)

/-- C10 (amended, witness): on the pairwise distinct colinear points the
scorer never reaches the empty-minimum branch. -/
theorem C10_amended_witness :
    pipeline [0, 1, 2, 10] 3 ≠ Except.error PErr.scorerEmptyMin :=
  C10_amended [0, 1, 2, 10] 3 (by with_unfolding_all decide)

theorem lbl_range (n v : ℕ) : lbl (List.range n) v = v := by
  unfold lbl
  rw [List.getD_eq_getElem?_getD]
  rcases lt_or_ge v n with h | h
  · rw [List.getElem?_eq_getElem (by simpa using h), List.getElem_range]
    rfl
  · rw [List.getElem?_eq_none (by simpa using h)]
    rfl

theorem kruskalGo_cons_ne {ls : List ℕ} {e : Entry} {es : List Entry}
    (h : lbl ls e.row ≠ lbl ls e.col) :
    kruskalGo ls (e :: es) =
      e :: kruskalGo (relabel ls (lbl ls e.col) (lbl ls e.row)) es := by
  conv_lhs => rw [kruskalGo]
  rw [if_neg h]

theorem exists_enum_pair {l : List Entry} {x : Entry} (h : x ∈ l) :
    ∃ i, (i, x) ∈ l.enum := by
  have h2 : x ∈ l.enum.map Prod.snd := by
    rw [List.enum_eq_enumFrom, List.enumFrom_map_snd]
    exact h
  rcases List.mem_map.mp h2 with ⟨pe, hpe, rfl⟩
  exact ⟨pe.1, by simpa using hpe⟩

/-- C4 (counterexample): on the points 0, 0, 0, 1 (three coincident
points) with k = 2, points 1 and 2 are coincident and each lies in the
other's neighbor set (both zero-weight entries are stored), yet no entry
connecting 1 and 2 survives into the restored forest: the third
coincident point makes the pair's epsilon edge close a cycle, so the
claimed survival of the connecting edge fails. -/
theorem C4_counterexample :
    dist1 (([0, 0, 0, 1] : List ℚ).getD 1 0) (([0, 0, 0, 1] : List ℚ).getD 2 0) = 0 ∧
    Entry.mk 1 2 0 ∈ knnGraph [0, 0, 0, 1] 2 ∧
    Entry.mk 2 1 0 ∈ knnGraph [0, 0, 0, 1] 2 ∧
    zeroFixOf [0, 0, 0, 1] 2 = some (1/100000000) ∧
    (forestFor [0, 0, 0, 1] 2 (1/100000000)).filter
      (fun e => decide ((e.row = 1 ∧ e.col = 2) ∨ (e.row = 2 ∧ e.col = 1))) = [] := by
  refine ⟨by with_unfolding_all rfl, ?_, ?_, s4_zf, ?_⟩
  · with_unfolding_all decide
  · with_unfolding_all decide
  · rw [s4_forest]; with_unfolding_all rfl

/-- C4 (amended): when the two coincident points a and b form the only
zero-distance pair of the input (no third point coincides with them) and
their connecting zero-weight edge is stored in the neighbor graph, the
sanitized epsilon edge is the strictly smallest candidate, so the
spanning-forest scan keeps it first and the restoration rewrites it back
to exactly 0: the restored forest contains an entry between a and b of
weight exactly 0. -/
theorem C4_amended (ps : List ℚ) (k a b : ℕ) (m : ℚ)
    (huniq : ∀ i ∈ List.range ps.length, ∀ j ∈ List.range ps.length, i ≠ j →
        dist1 (ps.getD i 0) (ps.getD j 0) = 0 → (i = a ∧ j = b) ∨ (i = b ∧ j = a))
    (hab : Entry.mk a b 0 ∈ knnGraph ps k)
    (hm : minQ (posWeights (knnGraph ps k)) = some m) :
    ∃ e ∈ forestFor ps k (m * epsFactor),
      ((e.row = a ∧ e.col = b) ∨ (e.row = b ∧ e.col = a)) ∧ e.w = 0 := by
  have hmpos : 0 < m := (mem_posWeights.mp (minQ_mem hm)).2
  have hzfpos : 0 < m * epsFactor := mul_pos hmpos (by norm_num [epsFactor])
  have hzflt : m * epsFactor < m := by
    have he1 : epsFactor < 1 := by norm_num [epsFactor]
    calc m * epsFactor < m * 1 := mul_lt_mul_of_pos_left he1 hmpos
      _ = m := mul_one m
  have hane : a ≠ b := by
    rcases knnGraph_mem hab with ⟨-, -, hne, -⟩
    exact fun hcon => hne (by simpa using hcon.symm)
  -- every sanitized entry has weight exactly the epsilon (and then connects
  -- a and b) or at least the minimum positive distance
  have hg2w : ∀ x ∈ sanitize (m * epsFactor) (knnGraph ps k),
      (x.w = m * epsFactor ∧ ((x.row = a ∧ x.col = b) ∨ (x.row = b ∧ x.col = a))) ∨
        m ≤ x.w := by
    intro x hx
    rcases List.mem_map.mp hx with ⟨e, he, rfl⟩
    by_cases h0 : e.w = 0
    · rw [if_pos h0]
      left
      refine ⟨rfl, ?_⟩
      rcases knnGraph_mem he with ⟨hrow, hcol, hne, hw⟩
      have hdist : dist1 (ps.getD e.row 0) (ps.getD e.col 0) = 0 := by
        rw [← hw]; exact h0
      have hcases := huniq e.row (List.mem_range.mpr hrow) e.col
        (List.mem_range.mpr hcol) (fun hcon => hne (by simpa using hcon.symm)) hdist
      simpa using hcases
    · rw [if_neg h0]
      right
      have hpos : 0 < e.w := lt_of_le_of_ne (knnGraph_w_nonneg he) (Ne.symm h0)
      exact minQ_le hm _ (mem_posWeights.mpr ⟨⟨e, he, rfl⟩, hpos⟩)
  -- the sanitized connecting entry is stored
  have habg2 : Entry.mk a b (m * epsFactor) ∈ sanitize (m * epsFactor) (knnGraph ps k) := by
    have h2 : (if (Entry.mk a b 0).w = 0
        then { Entry.mk a b 0 with w := m * epsFactor } else Entry.mk a b 0) ∈
        sanitize (m * epsFactor) (knnGraph ps k) := List.mem_map.mpr ⟨Entry.mk a b 0, hab, rfl⟩
    simpa using h2
  rcases exists_enum_pair habg2 with ⟨idx, hidx⟩
  have hidx2 : (idx, Entry.mk a b (m * epsFactor)) ∈
      sortByKey (fun pe => (pe.2.w, pe.1)) (sanitize (m * epsFactor) (knnGraph ps k)).enum :=
    sortByKey_mem.mpr hidx
  cases hsp2 : sortByKey (fun pe => (pe.2.w, pe.1))
      (sanitize (m * epsFactor) (knnGraph ps k)).enum with
  | nil =>
    rw [hsp2] at hidx2
    simp at hidx2
  | cons hp tl =>
    have hpair := sortByKey_pairwise (fun pe : ℕ × Entry => (pe.2.w, pe.1))
      (sanitize (m * epsFactor) (knnGraph ps k)).enum
    rw [hsp2] at hpair
    have hhead_le := (List.pairwise_cons.mp hpair).1
    have hpg2 : hp.2 ∈ sanitize (m * epsFactor) (knnGraph ps k) := by
      have hmem : hp ∈ sortByKey (fun pe => (pe.2.w, pe.1))
          (sanitize (m * epsFactor) (knnGraph ps k)).enum := by
        rw [hsp2]; exact List.mem_cons_self _ _
      have h2 := sortByKey_mem.mp hmem
      have h3 : hp.2 ∈ (sanitize (m * epsFactor) (knnGraph ps k)).enum.map Prod.snd :=
        List.mem_map.mpr ⟨hp, h2, rfl⟩
      rwa [List.enum_eq_enumFrom, List.enumFrom_map_snd] at h3
    have hple : hp.2.w ≤ m * epsFactor := by
      rw [hsp2] at hidx2
      rcases List.mem_cons.mp hidx2 with heq | hmem
      · rw [← heq]
      · rcases hhead_le _ hmem with hlt | ⟨heq2, -⟩
        · exact le_of_lt (by simpa using hlt)
        · exact le_of_eq (by simpa using heq2)
    rcases hg2w hp.2 hpg2 with ⟨hw, hconn⟩ | hge
    · have hne2 : hp.2.row ≠ hp.2.col := by
        rcases hconn with ⟨h1, h2⟩ | ⟨h1, h2⟩
        · rw [h1, h2]; exact hane
        · rw [h1, h2]; exact fun hcon => hane hcon.symm
      have hmst : hp.2 ∈ mstOf ps.length (sanitize (m * epsFactor) (knnGraph ps k)) := by
        unfold mstOf
        rw [hsp2, List.map_cons]
        rw [kruskalGo_cons_ne (by rw [lbl_range, lbl_range]; exact hne2)]
        exact List.mem_cons_self _ _
      refine ⟨{ hp.2 with w := 0 }, ?_, ?_, rfl⟩
      · unfold forestFor
        apply restore_mem.mpr
        exact ⟨hp.2, hmst, by rw [if_pos hw]⟩
      · simpa using hconn
    · linarith

/-- C4 (amended, witness): on the points 0, 0, 3, 7 with k = 2 the unique
duplicate pair 0, 1 keeps its connecting edge in the restored forest with
weight exactly 0. -/
theorem C4_amended_witness :
    ∃ e ∈ forestFor [0, 0, 3, 7] 2 (3 * epsFactor),
      ((e.row = 0 ∧ e.col = 1) ∨ (e.row = 1 ∧ e.col = 0)) ∧ e.w = 0 :=
  C4_amended [0, 0, 3, 7] 2 0 1 3
    (by with_unfolding_all decide)
    (by with_unfolding_all decide)
    (by with_unfolding_all rfl)
